import Mathlib

/-!
Verification of the electric-field visualizer core (src/lib.rs).

The Rust source computes over `f64`; this development embeds that arithmetic
shallowly over `ℝ` (the usual idealization: `+`, `-`, `*`, `/`, `f64::hypot`,
`cos`, `sin` become the corresponding real operations, with Lean's `x / 0 = 0`
convention at the singular points the source leaves unguarded).  Points pushed
into a polyline are modelled as the `f64` positions the tracer computes; the
final `as i32` truncation performed by `Point::new` is part of rendering and
does not affect point counts or any distance the program computes.
-/

namespace EFV

noncomputable section

open Real
open scoped Classical

/-- `PARTICLE_RADIUS` (src/lib.rs line 12), cast to `f64` wherever the tracer
uses it. -/
def PARTICLE_RADIUS : ℝ := 10

/-- `CHARGE_STEP` (src/lib.rs line 13): one elementary charge. -/
def CHARGE_STEP : ℝ := 1.602176634e-19

/-- `COULUMBS_CONST` (src/lib.rs line 14): Coulomb's constant, spelled as in
the source. -/
def COULUMBS_CONST : ℝ := 8.9875517923e9

/-- `MAX_LINE_ITERS` (src/lib.rs line 15): the tracer's step budget. -/
def MAX_LINE_ITERS : ℕ := 4096

/-- `f64::hypot x y = sqrt (x² + y²)`, over `ℝ`. -/
def hypot (x y : ℝ) : ℝ := Real.sqrt (x ^ 2 + y ^ 2)

/-- The subset of `sdl2::keyboard::Keycode` that `Game::handle_keydown`
distinguishes; `Other` stands for every key matched by the wildcard arm. -/
inductive Keycode where
  | Equals
  | Minus
  | N
  | Other

/-- `Game` (src/lib.rs lines 157-161): the particle list holds
`(x, y, charge)` triples. -/
structure Game where
  particles : List (ℝ × ℝ × ℝ)
  current_selected_charge : ℝ

/-- `Game::get_field_strength` (src/lib.rs lines 164-178): fold over the
particles accumulating `force_mag * direct_vec / direct_mag` into
`total_strength`, with `force_mag = COULUMBS_CONST * charge / direct_mag²`. -/
def Game.get_field_strength (g : Game) (x y : ℝ) : ℝ × ℝ :=
  g.particles.foldl
    (fun total_strength c =>
      let direct_vec : ℝ × ℝ := (x - c.1, y - c.2.1)
      let direct_mag : ℝ := hypot direct_vec.1 direct_vec.2
      let force_mag : ℝ := COULUMBS_CONST * c.2.2 / (direct_mag * direct_mag)
      (total_strength.1 + force_mag * direct_vec.1 / direct_mag,
       total_strength.2 + force_mag * direct_vec.2 / direct_mag))
    (0, 0)

/-- `Game::handle_keydown` (src/lib.rs lines 191-210): adjust
`current_selected_charge` by the matched key, then snap any value of absolute
value below `1e-30` to exactly `0`. -/
def Game.handle_keydown (g : Game) (k : Keycode) : Game :=
  let c : ℝ :=
    match k with
    | .Equals => g.current_selected_charge + CHARGE_STEP
    | .Minus => g.current_selected_charge - CHARGE_STEP
    | .N => 0
    | .Other => g.current_selected_charge
  { g with current_selected_charge := if |c| < 1e-30 then 0 else c }

/-- The sink test of the trace loop (src/lib.rs lines 254-263): some particle
of strictly negative charge lies within `PARTICLE_RADIUS * 1.1` of `p`. -/
def capturedBySink (g : Game) (p : ℝ × ℝ) : Prop :=
  ∃ c ∈ g.particles,
    c.2.2 < 0 ∧ hypot (p.1 - c.1) (p.2 - c.2.1) ≤ PARTICLE_RADIUS * 1.1

/-- One trace iteration's position update (src/lib.rs lines 248-252): advance
`current_pos` by `field_strength / field_strength_mag`. -/
def Game.traceStep (g : Game) (p : ℝ × ℝ) : ℝ × ℝ :=
  let field_strength := g.get_field_strength p.1 p.2
  let field_strength_mag := hypot field_strength.1 field_strength.2
  (p.1 + field_strength.1 / field_strength_mag,
   p.2 + field_strength.2 / field_strength_mag)

/-- The inner `for _ in 0..MAX_LINE_ITERS` loop (src/lib.rs lines 247-268):
step, then stop (discarding the stepped position) if a sink captures it,
otherwise push the stepped position and continue.  Returns the list of pushed
positions, in order. -/
def Game.traceLoop (g : Game) : ℕ → ℝ × ℝ → List (ℝ × ℝ)
  | 0, _ => []
  | n + 1, p =>
    let pnext := g.traceStep p
    if capturedBySink g pnext then [] else pnext :: g.traceLoop n pnext

/-- `i as f64 * PI / 8.0` (src/lib.rs line 239). -/
def startingAngle (i : ℕ) : ℝ := i * Real.pi / 8

/-- The initial `current_pos` of line `i` from a particle at `(x, y)`
(src/lib.rs lines 240-243). -/
def seedPoint (x y : ℝ) (i : ℕ) : ℝ × ℝ :=
  (x + PARTICLE_RADIUS * 1.1 * Real.cos (startingAngle i),
   y + PARTICLE_RADIUS * 1.1 * Real.sin (startingAngle i))

/-- The complete point sequence of line `i` traced from a particle at
`(x, y)`: the seed (pushed on src/lib.rs line 245) followed by the loop's
pushed positions. -/
def Game.traceLine (g : Game) (x y : ℝ) (i : ℕ) : List (ℝ × ℝ) :=
  let p0 := seedPoint x y i
  p0 :: g.traceLoop MAX_LINE_ITERS p0

/-- All field lines of one redraw (src/lib.rs lines 233-273): for each
particle of strictly positive charge, in order, the 16 lines `i = 0..15`. -/
def Game.fieldLines (g : Game) : List (List (ℝ × ℝ)) :=
  (g.particles.filter (fun c => decide (0 < c.2.2))).flatMap
    (fun c => (List.range 16).map (fun i => g.traceLine c.1 c.2.1 i))

/-- Modelled from the spec (§3, §4.1): the contribution of one charge to the
field at `(x, y)`, written as the spec writes it, `k_e * q * r̂ / |r|²` with
`r` the displacement from the charge to the query point. -/
def specContribution (x y : ℝ) (c : ℝ × ℝ × ℝ) : ℝ × ℝ :=
  let r : ℝ × ℝ := (x - c.1, y - c.2.1)
  let d : ℝ := hypot r.1 r.2
  (COULUMBS_CONST * c.2.2 / d ^ 2 * (r.1 / d),
   COULUMBS_CONST * c.2.2 / d ^ 2 * (r.2 / d))

/-! ### Basic facts about `hypot` -/

lemma hypot_nonneg (x y : ℝ) : 0 ≤ hypot x y :=
  Real.sqrt_nonneg _

lemma hypot_eq_zero_iff {x y : ℝ} : hypot x y = 0 ↔ x = 0 ∧ y = 0 := by
  unfold hypot
  rw [Real.sqrt_eq_zero (by positivity)]
  constructor
  · intro h
    have hx : x ^ 2 = 0 := by nlinarith [sq_nonneg x, sq_nonneg y]
    have hy : y ^ 2 = 0 := by nlinarith [sq_nonneg x, sq_nonneg y]
    exact ⟨pow_eq_zero_iff two_ne_zero |>.mp hx, pow_eq_zero_iff two_ne_zero |>.mp hy⟩
  · rintro ⟨rfl, rfl⟩
    ring

lemma hypot_pos_of_ne {x y : ℝ} (h : ¬(x = 0 ∧ y = 0)) : 0 < hypot x y := by
  rcases lt_or_eq_of_le (hypot_nonneg x y) with hlt | heq
  · exact hlt
  · exact absurd (hypot_eq_zero_iff.mp heq.symm) h

lemma hypot_mul_left (a x y : ℝ) : hypot (a * x) (a * y) = |a| * hypot x y := by
  unfold hypot
  rw [mul_pow, mul_pow, ← mul_add, Real.sqrt_mul (sq_nonneg a), Real.sqrt_sq_eq_abs]

lemma hypot_x_zero (x : ℝ) : hypot x 0 = |x| := by
  unfold hypot
  rw [show x ^ 2 + 0 ^ 2 = x ^ 2 by ring, Real.sqrt_sq_eq_abs]

lemma hypot_div_self {x y : ℝ} (h : hypot x y ≠ 0) :
    hypot (x / hypot x y) (y / hypot x y) = 1 := by
  have hpos : 0 < hypot x y := lt_of_le_of_ne (hypot_nonneg x y) (Ne.symm h)
  rw [div_eq_mul_inv, div_eq_mul_inv, mul_comm x, mul_comm y, hypot_mul_left,
    abs_inv, abs_of_pos hpos, inv_mul_cancel₀ h]

lemma sqrt_eq_of_sq {a b : ℝ} (hb : 0 ≤ b) (h : b ^ 2 = a) : Real.sqrt a = b := by
  rw [← h, Real.sqrt_sq hb]

/-! ### The field as a sum of spec-side contributions -/

lemma get_field_strength_def (g : Game) (x y : ℝ) :
    g.get_field_strength x y =
      g.particles.foldl
        (fun total_strength c =>
          (total_strength.1 +
              COULUMBS_CONST * c.2.2 /
                  (hypot (x - c.1) (y - c.2.1) * hypot (x - c.1) (y - c.2.1)) *
                  (x - c.1) / hypot (x - c.1) (y - c.2.1),
           total_strength.2 +
              COULUMBS_CONST * c.2.2 /
                  (hypot (x - c.1) (y - c.2.1) * hypot (x - c.1) (y - c.2.1)) *
                  (y - c.2.1) / hypot (x - c.1) (y - c.2.1)))
        (0, 0) :=
  rfl

lemma field_body_eq_specContribution (x y : ℝ) (t : ℝ × ℝ) (c : ℝ × ℝ × ℝ) :
    (t.1 +
        COULUMBS_CONST * c.2.2 /
            (hypot (x - c.1) (y - c.2.1) * hypot (x - c.1) (y - c.2.1)) *
            (x - c.1) / hypot (x - c.1) (y - c.2.1),
     t.2 +
        COULUMBS_CONST * c.2.2 /
            (hypot (x - c.1) (y - c.2.1) * hypot (x - c.1) (y - c.2.1)) *
            (y - c.2.1) / hypot (x - c.1) (y - c.2.1)) =
      t + specContribution x y c := by
  unfold specContribution
  rw [Prod.ext_iff]
  constructor <;> · simp only [Prod.fst_add, Prod.snd_add] ; ring

lemma get_field_strength_eq_sum (g : Game) (x y : ℝ) :
    g.get_field_strength x y = (g.particles.map (specContribution x y)).sum := by
  rw [get_field_strength_def]
  have main :
      ∀ (l : List (ℝ × ℝ × ℝ)) (init : ℝ × ℝ),
        l.foldl
          (fun total_strength c =>
            (total_strength.1 +
                COULUMBS_CONST * c.2.2 /
                    (hypot (x - c.1) (y - c.2.1) * hypot (x - c.1) (y - c.2.1)) *
                    (x - c.1) / hypot (x - c.1) (y - c.2.1),
             total_strength.2 +
                COULUMBS_CONST * c.2.2 /
                    (hypot (x - c.1) (y - c.2.1) * hypot (x - c.1) (y - c.2.1)) *
                    (y - c.2.1) / hypot (x - c.1) (y - c.2.1)))
          init = init + (l.map (specContribution x y)).sum := by
    intro l
    induction l with
    | nil => intro init ; simp
    | cons c l ih =>
        intro init
        rw [List.foldl_cons, field_body_eq_specContribution, ih, List.map_cons,
          List.sum_cons, add_assoc]
  rw [main g.particles (0, 0)]
  rw [show ((0 : ℝ), (0 : ℝ)) = (0 : ℝ × ℝ) from rfl, zero_add]

lemma hypot_eval {x y d : ℝ} (h0 : 0 ≤ d) (h : d ^ 2 = x ^ 2 + y ^ 2) :
    hypot x y = d := by
  unfold hypot
  exact sqrt_eq_of_sq h0 h

lemma COULUMBS_CONST_pos : (0 : ℝ) < COULUMBS_CONST := by
  unfold COULUMBS_CONST
  norm_num

lemma CHARGE_STEP_pos : (0 : ℝ) < CHARGE_STEP := by
  unfold CHARGE_STEP
  norm_num

/-- A concrete one-particle configuration, used to instantiate several of the
theorems below. -/
def g1 : Game := ⟨[(0, 0, CHARGE_STEP)], 0⟩

/-- C1: `Game::get_field_strength` returns the vector sum, over all charges,
of `k_e * q_i * r̂_i / |r_i|²` (the fold of the source equals the spec-side
sum of `specContribution`s), and each contribution, at a query point not
coincident with its charge, has magnitude `k_e * |q| / d²` — direction being
the unit vector `r̂` of the displacement from the charge to the query point,
as the `specContribution` formula exhibits. -/
theorem C1_field_is_coulomb_sum (g : Game) (x y : ℝ) (c : ℝ × ℝ × ℝ)
    (hc : c ∈ g.particles) (hd : hypot (x - c.1) (y - c.2.1) ≠ 0) :
    g.get_field_strength x y = (g.particles.map (specContribution x y)).sum ∧
    hypot (specContribution x y c).1 (specContribution x y c).2 =
      COULUMBS_CONST * |c.2.2| / hypot (x - c.1) (y - c.2.1) ^ 2 := by
  refine ⟨get_field_strength_eq_sum g x y, ?_⟩
  unfold specContribution
  rw [hypot_mul_left, hypot_div_self hd, mul_one, abs_div, abs_mul,
    abs_of_pos COULUMBS_CONST_pos, abs_of_nonneg (pow_nonneg (hypot_nonneg _ _) 2)]

/-- Witness for C1 at the configuration `g1` and query point `(3, 4)`. -/
theorem C1_field_is_coulomb_sum_holds :
    (((0 : ℝ), (0 : ℝ), CHARGE_STEP) ∈ g1.particles ∧
      hypot ((3 : ℝ) - 0) ((4 : ℝ) - 0) ≠ 0) ∧
    (g1.get_field_strength 3 4 = (g1.particles.map (specContribution 3 4)).sum ∧
      hypot (specContribution 3 4 (0, 0, CHARGE_STEP)).1
          (specContribution 3 4 (0, 0, CHARGE_STEP)).2 =
        COULUMBS_CONST * |CHARGE_STEP| / hypot ((3 : ℝ) - 0) ((4 : ℝ) - 0) ^ 2) := by
  have hmem : ((0 : ℝ), (0 : ℝ), CHARGE_STEP) ∈ g1.particles := by
    unfold g1
    simp
  have hd : hypot ((3 : ℝ) - 0) ((4 : ℝ) - 0) ≠ 0 := by
    rw [hypot_eval (show (0 : ℝ) ≤ 5 by norm_num) (by norm_num)]
    norm_num
  exact ⟨⟨hmem, hd⟩, C1_field_is_coulomb_sum g1 3 4 (0, 0, CHARGE_STEP) hmem hd⟩

/-- C5: for a set holding a single charge at `(a, b)` of magnitude `q`, and a
query point distinct from `(a, b)`, the returned field vector is `t` times the
displacement from the charge to the query point, with `t > 0` when `q > 0`
(field points away) and `t < 0` when `q < 0` (field points toward). -/
theorem C5_single_charge_sign (a b q cc x y : ℝ) (h : ¬(x = a ∧ y = b)) :
    ∃ t : ℝ,
      (Game.mk [(a, b, q)] cc).get_field_strength x y = (t * (x - a), t * (y - b)) ∧
      (0 < q → 0 < t) ∧ (q < 0 → t < 0) := by
  have hd : 0 < hypot (x - a) (y - b) := by
    apply hypot_pos_of_ne
    intro hz
    exact h ⟨by linarith [hz.1], by linarith [hz.2]⟩
  refine ⟨COULUMBS_CONST * q / hypot (x - a) (y - b) ^ 3, ?_, ?_, ?_⟩
  · rw [get_field_strength_eq_sum]
    show (List.map (specContribution x y) [(a, b, q)]).sum = _
    rw [List.map_cons, List.map_nil, List.sum_cons, List.sum_nil, add_zero]
    simp only [specContribution]
    rw [Prod.ext_iff]
    constructor <;> · show _ = _ ; rw [div_mul_div_comm, div_mul_eq_mul_div] ; congr 1 ; ring
  · intro hq
    exact div_pos (mul_pos COULUMBS_CONST_pos hq) (pow_pos hd 3)
  · intro hq
    exact div_neg_of_neg_of_pos (mul_neg_of_pos_of_neg COULUMBS_CONST_pos hq) (pow_pos hd 3)

/-- Witness for C5 at a charge `+CHARGE_STEP` at the origin and query point
`(3, 4)`. -/
theorem C5_single_charge_sign_holds :
    ¬((3 : ℝ) = 0 ∧ (4 : ℝ) = 0) ∧
    ∃ t : ℝ,
      (Game.mk [(0, 0, CHARGE_STEP)] 0).get_field_strength 3 4 =
        (t * ((3 : ℝ) - 0), t * ((4 : ℝ) - 0)) ∧
      (0 < CHARGE_STEP → 0 < t) ∧ (CHARGE_STEP < 0 → t < 0) := by
  have h : ¬((3 : ℝ) = 0 ∧ (4 : ℝ) = 0) := by norm_num
  exact ⟨h, C5_single_charge_sign 0 0 CHARGE_STEP 0 3 4 h⟩

/-- C8 (amended): on a trace iteration whose local field vector is nonzero,
the step taken by the tracer has Euclidean length exactly 1. -/
theorem C8_unit_step (g : Game) (p : ℝ × ℝ)
    (h : g.get_field_strength p.1 p.2 ≠ (0, 0)) :
    hypot ((g.traceStep p).1 - p.1) ((g.traceStep p).2 - p.2) = 1 := by
  have hm :
      hypot (g.get_field_strength p.1 p.2).1 (g.get_field_strength p.1 p.2).2 ≠ 0 := by
    intro h0
    rcases hypot_eq_zero_iff.mp h0 with ⟨h1, h2⟩
    exact h (Prod.ext h1 h2)
  show hypot
      (p.1 +
          (g.get_field_strength p.1 p.2).1 /
            hypot (g.get_field_strength p.1 p.2).1 (g.get_field_strength p.1 p.2).2 -
        p.1)
      (p.2 +
          (g.get_field_strength p.1 p.2).2 /
            hypot (g.get_field_strength p.1 p.2).1 (g.get_field_strength p.1 p.2).2 -
        p.2) = 1
  rw [add_sub_cancel_left, add_sub_cancel_left]
  exact hypot_div_self hm

/-- Two equal positive charges; the field vanishes at their midpoint. -/
def g2 : Game := ⟨[(0, 0, CHARGE_STEP), (2, 0, CHARGE_STEP)], 0⟩

/-- C8 counterexample: at the midpoint `(1, 0)` of the two equal positive
charges of `g2` the field is exactly `(0, 0)`, and the step the tracer takes
there has Euclidean length `0`, not `1` — refuting "step length is always
exactly 1 regardless of the local field magnitude". -/
theorem C8_unit_step_cex :
    g2.get_field_strength 1 0 = (0, 0) ∧
    hypot ((g2.traceStep (1, 0)).1 - 1) ((g2.traceStep (1, 0)).2 - 0) = 0 ∧
    (0 : ℝ) ≠ 1 := by
  have h1 : hypot ((1 : ℝ) - 0) ((0 : ℝ) - 0) = 1 :=
    hypot_eval (by norm_num) (by norm_num)
  have h2 : hypot ((1 : ℝ) - 2) ((0 : ℝ) - 0) = 1 :=
    hypot_eval (by norm_num) (by norm_num)
  have hfield : g2.get_field_strength 1 0 = (0, 0) := by
    rw [get_field_strength_eq_sum]
    show (List.map (specContribution 1 0) [(0, 0, CHARGE_STEP), (2, 0, CHARGE_STEP)]).sum = _
    rw [List.map_cons, List.map_cons, List.map_nil, List.sum_cons, List.sum_cons,
      List.sum_nil, add_zero]
    simp only [specContribution]
    rw [h1, h2, Prod.mk_add_mk, Prod.ext_iff]
    constructor <;> · show _ = _ ; norm_num
  refine ⟨hfield, ?_, by norm_num⟩
  have hstep : g2.traceStep (1, 0) = (1, 0) := by
    show (1 +
        (g2.get_field_strength 1 0).1 /
          hypot (g2.get_field_strength 1 0).1 (g2.get_field_strength 1 0).2,
      0 +
        (g2.get_field_strength 1 0).2 /
          hypot (g2.get_field_strength 1 0).1 (g2.get_field_strength 1 0).2) = ((1 : ℝ), (0 : ℝ))
    rw [hfield]
    norm_num
  rw [hstep]
  show hypot ((1 : ℝ) - 1) ((0 : ℝ) - 0) = 0
  rw [show (1 : ℝ) - 1 = 0 by norm_num, show (0 : ℝ) - 0 = 0 by norm_num]
  exact hypot_eq_zero_iff.mpr ⟨rfl, rfl⟩

/-! ### Structural facts about the trace loop -/

lemma traceLoop_zero (g : Game) (p : ℝ × ℝ) : g.traceLoop 0 p = [] :=
  rfl

lemma traceLoop_succ (g : Game) (n : ℕ) (p : ℝ × ℝ) :
    g.traceLoop (n + 1) p =
      if capturedBySink g (g.traceStep p) then []
      else g.traceStep p :: g.traceLoop n (g.traceStep p) :=
  rfl

lemma traceLoop_length_le (g : Game) :
    ∀ (n : ℕ) (p : ℝ × ℝ), (g.traceLoop n p).length ≤ n := by
  intro n
  induction n with
  | zero => intro p ; rw [traceLoop_zero] ; simp
  | succ n ih =>
      intro p
      rw [traceLoop_succ]
      by_cases hc : capturedBySink g (g.traceStep p)
      · rw [if_pos hc] ; simp
      · rw [if_neg hc, List.length_cons]
        exact Nat.succ_le_succ (ih (g.traceStep p))

lemma traceLoop_mem_not_captured (g : Game) :
    ∀ (n : ℕ) (p q : ℝ × ℝ), q ∈ g.traceLoop n p → ¬ capturedBySink g q := by
  intro n
  induction n with
  | zero => intro p q hq ; rw [traceLoop_zero] at hq ; exact absurd hq (List.not_mem_nil q)
  | succ n ih =>
      intro p q hq
      rw [traceLoop_succ] at hq
      by_cases hc : capturedBySink g (g.traceStep p)
      · rw [if_pos hc] at hq
        exact absurd hq (List.not_mem_nil q)
      · rw [if_neg hc] at hq
        rcases List.mem_cons.mp hq with rfl | h
        · exact hc
        · exact ih (g.traceStep p) q h

lemma traceLoop_short_captured (g : Game) :
    ∀ (n : ℕ) (p : ℝ × ℝ), (g.traceLoop n p).length < n →
      capturedBySink g
        (g.traceStep ((p :: g.traceLoop n p).getLast (List.cons_ne_nil p _))) := by
  intro n
  induction n with
  | zero => intro p h ; exact absurd h (Nat.not_lt_zero _)
  | succ n ih =>
      intro p h
      by_cases hc : capturedBySink g (g.traceStep p)
      · have hloop : g.traceLoop (n + 1) p = [] := by rw [traceLoop_succ, if_pos hc]
        have : (p :: g.traceLoop (n + 1) p).getLast (List.cons_ne_nil p _) = p := by
          rw [hloop]
          rfl
        rw [this]
        exact hc
      · have hloop : g.traceLoop (n + 1) p = g.traceStep p :: g.traceLoop n (g.traceStep p) := by
          rw [traceLoop_succ, if_neg hc]
        have hlen : (g.traceLoop n (g.traceStep p)).length < n := by
          rw [hloop, List.length_cons] at h
          omega
        have hlast :
            (p :: g.traceLoop (n + 1) p).getLast (List.cons_ne_nil p _) =
              (g.traceStep p :: g.traceLoop n (g.traceStep p)).getLast
                (List.cons_ne_nil _ _) := by
          have hne : g.traceLoop (n + 1) p ≠ [] := by
            rw [hloop]
            exact List.cons_ne_nil _ _
          rw [List.getLast_cons hne]
          congr 1
        rw [hlast]
        exact ih (g.traceStep p) hlen

lemma traceLine_eq (g : Game) (x y : ℝ) (i : ℕ) :
    g.traceLine x y i = seedPoint x y i :: g.traceLoop 4096 (seedPoint x y i) :=
  rfl

lemma traceLine_length_bounds (g : Game) (x y : ℝ) (i : ℕ) :
    1 ≤ (g.traceLine x y i).length ∧ (g.traceLine x y i).length ≤ 4097 := by
  rw [traceLine_eq, List.length_cons]
  have := traceLoop_length_le g 4096 (seedPoint x y i)
  omega

lemma fieldLines_flatMap_length (g : Game) (l : List (ℝ × ℝ × ℝ)) :
    (l.flatMap (fun c => (List.range 16).map (fun i => g.traceLine c.1 c.2.1 i))).length =
      16 * l.length := by
  induction l with
  | nil => simp
  | cons c t ih =>
      rw [List.flatMap_cons, List.length_append, ih, List.length_map,
        List.length_range, List.length_cons]
      ring

/-- C2: with `N` positive charges and no negative ones, the tracer produces
exactly `16 * N` field lines (`N` being the number of particles of positive
charge), and each line holds at least 1 point (the seed) and at most 4097
points (seed plus 4096 steps). -/
theorem C2_line_count (g : Game) (h : ∀ c ∈ g.particles, ¬ c.2.2 < 0) :
    g.fieldLines.length =
      16 * (g.particles.filter (fun c => decide (0 < c.2.2))).length ∧
    ∀ l ∈ g.fieldLines, 1 ≤ l.length ∧ l.length ≤ 4097 := by
  constructor
  · exact fieldLines_flatMap_length g _
  · intro l hl
    obtain ⟨c, _, hmap⟩ := List.mem_flatMap.mp hl
    obtain ⟨i, _, rfl⟩ := List.mem_map.mp hmap
    exact traceLine_length_bounds g c.1 c.2.1 i

/-- Witness for C2 at a configuration with one positive particle and no
negative one. -/
theorem C2_line_count_holds :
    (∀ c ∈ g1.particles, ¬ c.2.2 < 0) ∧
    (g1.fieldLines.length =
        16 * (g1.particles.filter (fun c => decide (0 < c.2.2))).length ∧
      ∀ l ∈ g1.fieldLines, 1 ≤ l.length ∧ l.length ≤ 4097) := by
  have h : ∀ c ∈ g1.particles, ¬ c.2.2 < 0 := by
    intro c hc
    rw [show g1.particles = [(0, 0, CHARGE_STEP)] from rfl, List.mem_singleton] at hc
    rw [hc]
    simp only [not_lt]
    exact le_of_lt CHARGE_STEP_pos
  exact ⟨h, C2_line_count g1 h⟩

/-! ### Inserting a neutral particle changes nothing -/

lemma specContribution_zero_charge (x y a b : ℝ) :
    specContribution x y (a, b, 0) = 0 := by
  simp only [specContribution]
  rw [Prod.ext_iff]
  constructor <;> · show _ = _ ; simp

lemma get_field_strength_insert_zero (l1 l2 : List (ℝ × ℝ × ℝ)) (a b cc x y : ℝ) :
    (Game.mk (l1 ++ (a, b, 0) :: l2) cc).get_field_strength x y =
      (Game.mk (l1 ++ l2) cc).get_field_strength x y := by
  rw [get_field_strength_eq_sum, get_field_strength_eq_sum]
  show (List.map (specContribution x y) (l1 ++ (a, b, 0) :: l2)).sum =
    (List.map (specContribution x y) (l1 ++ l2)).sum
  rw [List.map_append, List.map_cons, List.sum_append, List.sum_cons,
    specContribution_zero_charge, zero_add, List.map_append, List.sum_append]

lemma capturedBySink_insert_zero (l1 l2 : List (ℝ × ℝ × ℝ)) (a b cc : ℝ) (p : ℝ × ℝ) :
    capturedBySink (Game.mk (l1 ++ (a, b, 0) :: l2) cc) p ↔
      capturedBySink (Game.mk (l1 ++ l2) cc) p := by
  unfold capturedBySink
  constructor
  · rintro ⟨c, hc, hneg, hdist⟩
    refine ⟨c, ?_, hneg, hdist⟩
    rcases List.mem_append.mp hc with h | h
    · exact List.mem_append.mpr (Or.inl h)
    · rcases List.mem_cons.mp h with rfl | h
      · exact absurd hneg (by norm_num)
      · exact List.mem_append.mpr (Or.inr h)
  · rintro ⟨c, hc, hneg, hdist⟩
    refine ⟨c, ?_, hneg, hdist⟩
    rcases List.mem_append.mp hc with h | h
    · exact List.mem_append.mpr (Or.inl h)
    · exact List.mem_append.mpr (Or.inr (List.mem_cons_of_mem _ h))

lemma traceStep_insert_zero (l1 l2 : List (ℝ × ℝ × ℝ)) (a b cc : ℝ) (p : ℝ × ℝ) :
    (Game.mk (l1 ++ (a, b, 0) :: l2) cc).traceStep p =
      (Game.mk (l1 ++ l2) cc).traceStep p := by
  unfold Game.traceStep
  rw [get_field_strength_insert_zero]

lemma traceLoop_insert_zero (l1 l2 : List (ℝ × ℝ × ℝ)) (a b cc : ℝ) :
    ∀ (n : ℕ) (p : ℝ × ℝ),
      (Game.mk (l1 ++ (a, b, 0) :: l2) cc).traceLoop n p =
        (Game.mk (l1 ++ l2) cc).traceLoop n p := by
  intro n
  induction n with
  | zero => intro p ; rw [traceLoop_zero, traceLoop_zero]
  | succ n ih =>
      intro p
      rw [traceLoop_succ, traceLoop_succ, traceStep_insert_zero]
      by_cases hc : capturedBySink (Game.mk (l1 ++ l2) cc) ((Game.mk (l1 ++ l2) cc).traceStep p)
      · rw [if_pos hc, if_pos ((capturedBySink_insert_zero l1 l2 a b cc _).mpr hc)]
      · rw [if_neg hc, if_neg (fun hx => hc ((capturedBySink_insert_zero l1 l2 a b cc _).mp hx)),
          ih]

lemma traceLine_insert_zero (l1 l2 : List (ℝ × ℝ × ℝ)) (a b cc x y : ℝ) (i : ℕ) :
    (Game.mk (l1 ++ (a, b, 0) :: l2) cc).traceLine x y i =
      (Game.mk (l1 ++ l2) cc).traceLine x y i := by
  rw [traceLine_eq, traceLine_eq, traceLoop_insert_zero]

/-- C6: a particle of charge exactly 0 never emits field lines and never acts
as a sink — inserting it anywhere in the particle list changes neither the
produced field lines nor the capture test — and a configuration holding only
neutral and negative particles produces zero field lines. -/
theorem C6_neutral_inert (l1 l2 : List (ℝ × ℝ × ℝ)) (a b cc : ℝ) (g0 : Game)
    (h0 : ∀ c ∈ g0.particles, c.2.2 ≤ 0) :
    (Game.mk (l1 ++ (a, b, 0) :: l2) cc).fieldLines =
      (Game.mk (l1 ++ l2) cc).fieldLines ∧
    (∀ p : ℝ × ℝ,
      capturedBySink (Game.mk (l1 ++ (a, b, 0) :: l2) cc) p ↔
        capturedBySink (Game.mk (l1 ++ l2) cc) p) ∧
    g0.fieldLines = [] := by
  refine ⟨?_, capturedBySink_insert_zero l1 l2 a b cc, ?_⟩
  · unfold Game.fieldLines
    show (List.filter _ (l1 ++ (a, b, 0) :: l2)).flatMap _ =
      (List.filter _ (l1 ++ l2)).flatMap _
    rw [List.filter_append, List.filter_cons]
    rw [if_neg (by norm_num), ← List.filter_append]
    exact List.flatMap_congr fun c _ => by
      rw [List.map_congr_left fun i _ => traceLine_insert_zero l1 l2 a b cc c.1 c.2.1 i]
  · unfold Game.fieldLines
    rw [List.filter_eq_nil_iff.mpr fun c hc => by
      simp only [decide_eq_true_eq, not_lt]
      exact h0 c hc]
    rw [List.flatMap_nil]

/-- Witness for C6: insert a neutral particle into a one-particle list, and a
neutral-plus-negative configuration. -/
theorem C6_neutral_inert_holds :
    (∀ c ∈ (Game.mk [(0, 0, 0), (1, 1, -CHARGE_STEP)] 0).particles, c.2.2 ≤ 0) ∧
    ((Game.mk ([] ++ (0, 0, 0) :: [(5, 5, CHARGE_STEP)]) 0).fieldLines =
        (Game.mk ([] ++ [(5, 5, CHARGE_STEP)]) 0).fieldLines ∧
      (∀ p : ℝ × ℝ,
        capturedBySink (Game.mk ([] ++ (0, 0, 0) :: [(5, 5, CHARGE_STEP)]) 0) p ↔
          capturedBySink (Game.mk ([] ++ [(5, 5, CHARGE_STEP)]) 0) p) ∧
      (Game.mk [(0, 0, 0), (1, 1, -CHARGE_STEP)] 0).fieldLines = []) := by
  have h0 : ∀ c ∈ (Game.mk [(0, 0, 0), (1, 1, -CHARGE_STEP)] 0).particles, c.2.2 ≤ 0 := by
    intro c hc
    rcases List.mem_cons.mp hc with rfl | hc
    · norm_num
    · rw [List.mem_singleton] at hc
      rw [hc]
      simp only
      linarith [CHARGE_STEP_pos]
  exact ⟨h0, C6_neutral_inert [] [(5, 5, CHARGE_STEP)] 0 0 0 _ h0⟩

/-- C10: in every traced field line, every point after the seed lies at
Euclidean distance strictly greater than `1.1 * PARTICLE_RADIUS` from every
negatively charged particle (the capture test runs before the append, so a
capturing position is discarded rather than appended). -/
theorem C10_tail_points_outside_sinks (g : Game) (l : List (ℝ × ℝ))
    (hl : l ∈ g.fieldLines) (p : ℝ × ℝ) (hp : p ∈ l.tail) (c : ℝ × ℝ × ℝ)
    (hc : c ∈ g.particles) (hneg : c.2.2 < 0) :
    PARTICLE_RADIUS * 1.1 < hypot (p.1 - c.1) (p.2 - c.2.1) := by
  obtain ⟨q, _, hmap⟩ := List.mem_flatMap.mp hl
  obtain ⟨i, _, rfl⟩ := List.mem_map.mp hmap
  have htail : (g.traceLine q.1 q.2.1 i).tail = g.traceLoop 4096 (seedPoint q.1 q.2.1 i) := by
    rw [traceLine_eq, List.tail_cons]
  rw [htail] at hp
  have hncap := traceLoop_mem_not_captured g 4096 (seedPoint q.1 q.2.1 i) p hp
  by_contra hle
  exact hncap ⟨c, hc, hneg, le_of_not_lt hle⟩

/-! ### Charge adjustment and snapping -/

lemma snap_zero_or_large (c : ℝ) :
    (if |c| < 1e-30 then (0 : ℝ) else c) = 0 ∨
      (1e-30 : ℝ) ≤ |if |c| < 1e-30 then (0 : ℝ) else c| := by
  by_cases hc : |c| < 1e-30
  · left
    rw [if_pos hc]
  · right
    rw [if_neg hc]
    exact le_of_not_lt hc

/-- C9: after any key-down, the selected charge is either exactly `0` or of
absolute value at least `1e-30` (the snap), and from a selected charge of
absolute value below `1e-30`, one increase step followed by one decrease step
— or vice versa — leaves the selected charge exactly `0`. -/
theorem C9_snap_to_zero (g : Game) (k : Keycode)
    (h : |g.current_selected_charge| < 1e-30) :
    ((g.handle_keydown k).current_selected_charge = 0 ∨
      (1e-30 : ℝ) ≤ |(g.handle_keydown k).current_selected_charge|) ∧
    ((g.handle_keydown .Equals).handle_keydown .Minus).current_selected_charge = 0 ∧
    ((g.handle_keydown .Minus).handle_keydown .Equals).current_selected_charge = 0 := by
  have hstep : (1e-30 : ℝ) < CHARGE_STEP - 1e-30 := by
    unfold CHARGE_STEP
    norm_num
  have hbound := abs_lt.mp h
  refine ⟨?_, ?_, ?_⟩
  · cases k with
    | Equals => exact snap_zero_or_large (g.current_selected_charge + CHARGE_STEP)
    | Minus => exact snap_zero_or_large (g.current_selected_charge - CHARGE_STEP)
    | N => exact snap_zero_or_large 0
    | Other => exact snap_zero_or_large g.current_selected_charge
  · have hpos : 0 < g.current_selected_charge + CHARGE_STEP := by linarith
    have hnosnap : ¬ |g.current_selected_charge + CHARGE_STEP| < 1e-30 := by
      rw [abs_of_pos hpos]
      intro hlt
      linarith
    have h1 : (g.handle_keydown .Equals).current_selected_charge =
        g.current_selected_charge + CHARGE_STEP := by
      show (if |g.current_selected_charge + CHARGE_STEP| < 1e-30 then (0 : ℝ)
        else g.current_selected_charge + CHARGE_STEP) = _
      rw [if_neg hnosnap]
    show (if |(g.handle_keydown .Equals).current_selected_charge - CHARGE_STEP| < 1e-30
      then (0 : ℝ)
      else (g.handle_keydown .Equals).current_selected_charge - CHARGE_STEP) = 0
    rw [h1, add_sub_cancel_right, if_pos h]
  · have hneg : g.current_selected_charge - CHARGE_STEP < 0 := by linarith
    have hnosnap : ¬ |g.current_selected_charge - CHARGE_STEP| < 1e-30 := by
      rw [abs_of_neg hneg]
      intro hlt
      linarith
    have h1 : (g.handle_keydown .Minus).current_selected_charge =
        g.current_selected_charge - CHARGE_STEP := by
      show (if |g.current_selected_charge - CHARGE_STEP| < 1e-30 then (0 : ℝ)
        else g.current_selected_charge - CHARGE_STEP) = _
      rw [if_neg hnosnap]
    show (if |(g.handle_keydown .Minus).current_selected_charge + CHARGE_STEP| < 1e-30
      then (0 : ℝ)
      else (g.handle_keydown .Minus).current_selected_charge + CHARGE_STEP) = 0
    rw [h1, sub_add_cancel, if_pos h]

/-- Witness for C9 at the initial state (selected charge `0`). -/
theorem C9_snap_to_zero_holds :
    |(Game.mk [] 0).current_selected_charge| < 1e-30 ∧
    (((Game.mk [] 0).handle_keydown .N).current_selected_charge = 0 ∨
      (1e-30 : ℝ) ≤ |((Game.mk [] 0).handle_keydown .N).current_selected_charge|) ∧
    (((Game.mk [] 0).handle_keydown .Equals).handle_keydown
        .Minus).current_selected_charge = 0 ∧
    (((Game.mk [] 0).handle_keydown .Minus).handle_keydown
        .Equals).current_selected_charge = 0 := by
  have h : |(Game.mk [] (0 : ℝ)).current_selected_charge| < 1e-30 := by
    show |(0 : ℝ)| < 1e-30
    rw [abs_zero]
    norm_num
  obtain ⟨h1, h2, h3⟩ := C9_snap_to_zero (Game.mk [] 0) Keycode.N h
  exact ⟨h, h1, h2, h3⟩

/-! ### Starting angles and seed points -/

lemma startingAngle_injective : Function.Injective startingAngle := by
  intro i j hij
  unfold startingAngle at hij
  field_simp at hij
  rcases hij with h | h
  · exact_mod_cast h
  · exact absurd h Real.pi_ne_zero

lemma startingAngle_nodup : ((List.range 16).map startingAngle).Nodup :=
  (List.nodup_range 16).map startingAngle_injective

lemma startingAngle_lt_two_pi {i : ℕ} (hi : i < 16) :
    startingAngle i < 2 * Real.pi := by
  unfold startingAngle
  have hle : (i : ℝ) ≤ 15 := by
    exact_mod_cast Nat.le_of_lt_succ hi
  nlinarith [Real.pi_pos]

lemma seedPoint_dist (x y : ℝ) (i : ℕ) :
    hypot ((seedPoint x y i).1 - x) ((seedPoint x y i).2 - y) =
      PARTICLE_RADIUS * 1.1 := by
  show hypot (x + PARTICLE_RADIUS * 1.1 * Real.cos (startingAngle i) - x)
    (y + PARTICLE_RADIUS * 1.1 * Real.sin (startingAngle i) - y) = _
  rw [add_sub_cancel_left, add_sub_cancel_left, hypot_mul_left]
  have hone : hypot (Real.cos (startingAngle i)) (Real.sin (startingAngle i)) = 1 := by
    unfold hypot
    rw [Real.cos_sq_add_sin_sq, Real.sqrt_one]
  rw [hone, mul_one, abs_of_pos (by unfold PARTICLE_RADIUS ; norm_num)]

/-- C7 (amended): the 16 traced lines use the starting angles `i * π / 8`,
`i = 0..15`, evenly spaced `π/8` apart and covering the full `2π` circle
exactly once (the angles are pairwise distinct, lie below `2π`, and the 16
increments sum to one revolution); each line's first point is the particle's
position offset by exactly `1.1 * PARTICLE_RADIUS` along its starting
angle. -/
theorem C7_seed_angles (x y : ℝ) (i : ℕ) (hi : i < 16) (g : Game) :
    startingAngle (i + 1) - startingAngle i = Real.pi / 8 ∧
    seedPoint x y i =
      (x + PARTICLE_RADIUS * 1.1 * Real.cos (startingAngle i),
       y + PARTICLE_RADIUS * 1.1 * Real.sin (startingAngle i)) ∧
    hypot ((seedPoint x y i).1 - x) ((seedPoint x y i).2 - y) =
      PARTICLE_RADIUS * 1.1 ∧
    ((List.range 16).map startingAngle).Nodup ∧
    startingAngle i < 2 * Real.pi ∧
    (g.traceLine x y i).head? = some (seedPoint x y i) := by
  refine ⟨?_, rfl, seedPoint_dist x y i, startingAngle_nodup,
    startingAngle_lt_two_pi hi, by rw [traceLine_eq, List.head?_cons]⟩
  unfold startingAngle
  push_cast
  ring

/-- Witness for C7 at `i = 0` and a particle at the origin. -/
theorem C7_seed_angles_holds :
    (0 : ℕ) < 16 ∧
    (startingAngle (0 + 1) - startingAngle 0 = Real.pi / 8 ∧
      seedPoint 0 0 0 =
        ((0 : ℝ) + PARTICLE_RADIUS * 1.1 * Real.cos (startingAngle 0),
         (0 : ℝ) + PARTICLE_RADIUS * 1.1 * Real.sin (startingAngle 0)) ∧
      hypot ((seedPoint 0 0 0).1 - 0) ((seedPoint 0 0 0).2 - 0) =
        PARTICLE_RADIUS * 1.1 ∧
      ((List.range 16).map startingAngle).Nodup ∧
      startingAngle 0 < 2 * Real.pi ∧
      (g1.traceLine 0 0 0).head? = some (seedPoint 0 0 0)) :=
  ⟨by norm_num, C7_seed_angles 0 0 0 (by norm_num) g1⟩

/-- C7 counterexample to "covering the full 2π circle twice over": the first
starting angle is `0`, the 16 angles are pairwise distinct and all below
`2π`, and 16 increments of `π/8` sweep exactly `2π` — one revolution, not
`2 * (2π)`. -/
theorem C7_single_revolution_cex :
    startingAngle 0 = 0 ∧
    ((List.range 16).map startingAngle).Nodup ∧
    ((List.range 16).map startingAngle).Forall (fun t => t < 2 * Real.pi) ∧
    startingAngle 16 = 2 * Real.pi ∧
    (2 : ℝ) * Real.pi ≠ 2 * (2 * Real.pi) := by
  refine ⟨?_, startingAngle_nodup, ?_, ?_, ?_⟩
  · unfold startingAngle
    norm_num
  · rw [List.forall_iff_forall_mem]
    intro t ht
    obtain ⟨i, hi, rfl⟩ := List.mem_map.mp ht
    exact startingAngle_lt_two_pi (List.mem_range.mp hi)
  · unfold startingAngle
    push_cast
    ring
  · intro heq
    nlinarith [Real.pi_pos]

/-! ### A concrete two-charge configuration on the x-axis -/

/-- One positive charge at the origin and one negative charge at `(23, 0)`.
The seed of line 0 is `(11, 0)` and a single step lands exactly on the
capture boundary of the sink; the seed of line 8 is `(-11, 0)` and its first
step moves away from the sink. -/
def gW : Game := ⟨[(0, 0, CHARGE_STEP), (23, 0, -CHARGE_STEP)], 0⟩

lemma seed0 : seedPoint 0 0 0 = ((11 : ℝ), 0) := by
  unfold seedPoint
  rw [show startingAngle 0 = 0 by unfold startingAngle ; norm_num]
  rw [Real.cos_zero, Real.sin_zero]
  unfold PARTICLE_RADIUS
  norm_num

lemma seed8 : seedPoint 0 0 8 = ((-11 : ℝ), 0) := by
  unfold seedPoint
  rw [show startingAngle 8 = Real.pi by unfold startingAngle ; push_cast ; ring]
  rw [Real.cos_pi, Real.sin_pi]
  unfold PARTICLE_RADIUS
  norm_num

lemma gW_field_11 : gW.get_field_strength 11 0 =
    (COULUMBS_CONST * CHARGE_STEP / 121 + COULUMBS_CONST * CHARGE_STEP / 144, 0) := by
  have ha : hypot ((11 : ℝ) - 0) ((0 : ℝ) - 0) = 11 := hypot_eval (by norm_num) (by norm_num)
  have hb : hypot ((11 : ℝ) - 23) ((0 : ℝ) - 0) = 12 := hypot_eval (by norm_num) (by norm_num)
  rw [get_field_strength_eq_sum]
  show (List.map (specContribution 11 0) [(0, 0, CHARGE_STEP), (23, 0, -CHARGE_STEP)]).sum = _
  rw [List.map_cons, List.map_cons, List.map_nil, List.sum_cons, List.sum_cons,
    List.sum_nil, add_zero]
  simp only [specContribution]
  rw [ha, hb, Prod.mk_add_mk, Prod.ext_iff]
  constructor <;> · show _ = _ ; norm_num ; try ring

lemma gW_F0_pos :
    0 < COULUMBS_CONST * CHARGE_STEP / 121 + COULUMBS_CONST * CHARGE_STEP / 144 := by
  have h := mul_pos COULUMBS_CONST_pos CHARGE_STEP_pos
  have h1 := div_pos h (show (0 : ℝ) < 121 by norm_num)
  have h2 := div_pos h (show (0 : ℝ) < 144 by norm_num)
  linarith

lemma gW_step_11 : gW.traceStep (11, 0) = (12, 0) := by
  show (11 +
      (gW.get_field_strength 11 0).1 /
        hypot (gW.get_field_strength 11 0).1 (gW.get_field_strength 11 0).2,
    0 +
      (gW.get_field_strength 11 0).2 /
        hypot (gW.get_field_strength 11 0).1 (gW.get_field_strength 11 0).2) =
    ((12 : ℝ), (0 : ℝ))
  rw [gW_field_11]
  have hm : hypot (COULUMBS_CONST * CHARGE_STEP / 121 + COULUMBS_CONST * CHARGE_STEP / 144) 0 =
      COULUMBS_CONST * CHARGE_STEP / 121 + COULUMBS_CONST * CHARGE_STEP / 144 := by
    rw [hypot_x_zero, abs_of_pos gW_F0_pos]
  rw [Prod.ext_iff]
  constructor
  · show 11 + _ / _ = 12
    rw [hm, div_self (ne_of_gt gW_F0_pos)]
    norm_num
  · show 0 + (0 : ℝ) / _ = 0
    rw [zero_div, add_zero]

lemma gW_captured_12 : capturedBySink gW ((12 : ℝ), 0) := by
  refine ⟨(23, 0, -CHARGE_STEP), ?_, ?_, ?_⟩
  · show _ ∈ gW.particles
    rw [show gW.particles = [(0, 0, CHARGE_STEP), (23, 0, -CHARGE_STEP)] from rfl]
    exact List.mem_cons_of_mem _ (List.mem_singleton.mpr rfl)
  · show -CHARGE_STEP < 0
    linarith [CHARGE_STEP_pos]
  · show hypot ((12 : ℝ) - 23) ((0 : ℝ) - 0) ≤ PARTICLE_RADIUS * 1.1
    rw [hypot_eval (show (0 : ℝ) ≤ 11 by norm_num) (by norm_num)]
    unfold PARTICLE_RADIUS
    norm_num

lemma gW_line0 : gW.traceLine 0 0 0 = [((11 : ℝ), 0)] := by
  rw [traceLine_eq, seed0]
  rw [show (4096 : ℕ) = 4095 + 1 by norm_num, traceLoop_succ, gW_step_11,
    if_pos gW_captured_12]

lemma gW_line_mem (i : ℕ) (hi : i < 16) : gW.traceLine 0 0 i ∈ gW.fieldLines := by
  unfold Game.fieldLines
  apply List.mem_flatMap.mpr
  refine ⟨(0, 0, CHARGE_STEP), ?_, ?_⟩
  · apply List.mem_filter.mpr
    constructor
    · show _ ∈ gW.particles
      rw [show gW.particles = [(0, 0, CHARGE_STEP), (23, 0, -CHARGE_STEP)] from rfl]
      exact List.mem_cons_self _ _
    · simp only [decide_eq_true_eq]
      exact CHARGE_STEP_pos
  · exact List.mem_map.mpr ⟨i, List.mem_range.mpr hi, rfl⟩

/-- C3 (amended): for one positive and one negative charge, every emitted
field line satisfies exactly one of: (a) it stops early — fewer than 4097
points — because the next computed position after its last point lies within
`1.1 * PARTICLE_RADIUS` of the negative charge (the capturing position itself
is discarded, so the last retained point stays outside that radius); or
(b) it exhausts the full 4096-step budget with exactly 4097 points. -/
theorem C3_capture_or_budget (px py qp nx ny qn cc : ℝ) (hqp : 0 < qp) (hqn : qn < 0)
    (l : List (ℝ × ℝ))
    (hl : l ∈ (Game.mk [(px, py, qp), (nx, ny, qn)] cc).fieldLines) :
    ∃ p : ℝ × ℝ, l.getLast? = some p ∧
      ((l.length < 4097 ∧
          hypot (((Game.mk [(px, py, qp), (nx, ny, qn)] cc).traceStep p).1 - nx)
              (((Game.mk [(px, py, qp), (nx, ny, qn)] cc).traceStep p).2 - ny) ≤
            PARTICLE_RADIUS * 1.1 ∧
          ¬ l.length = 4097) ∨
        (l.length = 4097 ∧ ¬ l.length < 4097)) := by
  obtain ⟨c, _, hmap⟩ := List.mem_flatMap.mp hl
  obtain ⟨i, _, rfl⟩ := List.mem_map.mp hmap
  set g := Game.mk [(px, py, qp), (nx, ny, qn)] cc with hg
  have hne : g.traceLine c.1 c.2.1 i ≠ [] := by
    rw [traceLine_eq]
    exact List.cons_ne_nil _ _
  refine ⟨(g.traceLine c.1 c.2.1 i).getLast hne, (List.getLast?_eq_getLast _ hne), ?_⟩
  have hlen_le := traceLoop_length_le g 4096 (seedPoint c.1 c.2.1 i)
  have hlen : (g.traceLine c.1 c.2.1 i).length =
      (g.traceLoop 4096 (seedPoint c.1 c.2.1 i)).length + 1 := by
    rw [traceLine_eq, List.length_cons]
  by_cases hshort : (g.traceLoop 4096 (seedPoint c.1 c.2.1 i)).length < 4096
  · left
    refine ⟨by omega, ?_, by omega⟩
    have hcap := traceLoop_short_captured g 4096 (seedPoint c.1 c.2.1 i) hshort
    rcases hcap with ⟨cs, hcs, hneg, hdist⟩
    have hcs2 : cs = (px, py, qp) ∨ cs = (nx, ny, qn) := by
      rcases List.mem_cons.mp hcs with h | h
      · exact Or.inl h
      · exact Or.inr (List.mem_singleton.mp h)
    rcases hcs2 with rfl | rfl
    · exact absurd hneg (by show ¬ qp < 0 ; linarith)
    · exact hdist
  · right
    exact ⟨by omega, by omega⟩

/-- C3 counterexample to the claim as stated: in `gW`, line 0 is an emitted
field line that stops after a single point — it does not exhaust the
4096-step budget (its length is 1, not 4097) — and its last point `(11, 0)`
is NOT within `1.1 * PARTICLE_RADIUS` of the negative charge at `(23, 0)`
(its distance is 12): the capture test runs before the append, so the
capturing position was discarded and neither branch of the claimed
"exactly one of" holds. -/
theorem C3_capture_or_budget_cex :
    gW.traceLine 0 0 0 ∈ gW.fieldLines ∧
    gW.traceLine 0 0 0 = [((11 : ℝ), 0)] ∧
    ¬ hypot ((11 : ℝ) - 23) ((0 : ℝ) - 0) ≤ PARTICLE_RADIUS * 1.1 ∧
    (gW.traceLine 0 0 0).length ≠ 4097 := by
  refine ⟨gW_line_mem 0 (by norm_num), gW_line0, ?_, ?_⟩
  · rw [hypot_eval (show (0 : ℝ) ≤ 12 by norm_num) (by norm_num)]
    unfold PARTICLE_RADIUS
    norm_num
  · rw [gW_line0]
    norm_num

/-- Witness for the amended C3 at `gW` and its line 0. -/
theorem C3_capture_or_budget_holds :
    ((0 : ℝ) < CHARGE_STEP ∧ -CHARGE_STEP < (0 : ℝ) ∧
      gW.traceLine 0 0 0 ∈ gW.fieldLines) ∧
    ∃ p : ℝ × ℝ, (gW.traceLine 0 0 0).getLast? = some p ∧
      (((gW.traceLine 0 0 0).length < 4097 ∧
          hypot ((gW.traceStep p).1 - 23) ((gW.traceStep p).2 - 0) ≤
            PARTICLE_RADIUS * 1.1 ∧
          ¬ (gW.traceLine 0 0 0).length = 4097) ∨
        ((gW.traceLine 0 0 0).length = 4097 ∧
          ¬ (gW.traceLine 0 0 0).length < 4097)) := by
  have hqn : -CHARGE_STEP < (0 : ℝ) := by linarith [CHARGE_STEP_pos]
  exact ⟨⟨CHARGE_STEP_pos, hqn, gW_line_mem 0 (by norm_num)⟩,
    C3_capture_or_budget 0 0 CHARGE_STEP 23 0 (-CHARGE_STEP) 0 CHARGE_STEP_pos hqn
      _ (gW_line_mem 0 (by norm_num))⟩

lemma gW_field_m11 : gW.get_field_strength (-11) 0 =
    (COULUMBS_CONST * CHARGE_STEP / 1156 - COULUMBS_CONST * CHARGE_STEP / 121, 0) := by
  have ha : hypot ((-11 : ℝ) - 0) ((0 : ℝ) - 0) = 11 := hypot_eval (by norm_num) (by norm_num)
  have hb : hypot ((-11 : ℝ) - 23) ((0 : ℝ) - 0) = 34 := hypot_eval (by norm_num) (by norm_num)
  rw [get_field_strength_eq_sum]
  show (List.map (specContribution (-11) 0) [(0, 0, CHARGE_STEP), (23, 0, -CHARGE_STEP)]).sum = _
  rw [List.map_cons, List.map_cons, List.map_nil, List.sum_cons, List.sum_cons,
    List.sum_nil, add_zero]
  simp only [specContribution]
  rw [ha, hb, Prod.mk_add_mk, Prod.ext_iff]
  constructor <;> · show _ = _ ; norm_num ; try ring

lemma gW_G0_neg :
    COULUMBS_CONST * CHARGE_STEP / 1156 - COULUMBS_CONST * CHARGE_STEP / 121 < 0 := by
  rw [sub_neg]
  rw [div_lt_div_iff (by norm_num) (by norm_num)]
  linarith [mul_pos COULUMBS_CONST_pos CHARGE_STEP_pos]

lemma gW_step_m11 : gW.traceStep (-11, 0) = (-12, 0) := by
  show (-11 +
      (gW.get_field_strength (-11) 0).1 /
        hypot (gW.get_field_strength (-11) 0).1 (gW.get_field_strength (-11) 0).2,
    0 +
      (gW.get_field_strength (-11) 0).2 /
        hypot (gW.get_field_strength (-11) 0).1 (gW.get_field_strength (-11) 0).2) =
    ((-12 : ℝ), (0 : ℝ))
  rw [gW_field_m11]
  have hm : hypot (COULUMBS_CONST * CHARGE_STEP / 1156 - COULUMBS_CONST * CHARGE_STEP / 121) 0 =
      -(COULUMBS_CONST * CHARGE_STEP / 1156 - COULUMBS_CONST * CHARGE_STEP / 121) := by
    rw [hypot_x_zero, abs_of_neg gW_G0_neg]
  rw [Prod.ext_iff]
  constructor
  · show -11 + _ / _ = -12
    rw [hm, div_neg, div_self (ne_of_lt gW_G0_neg)]
    norm_num
  · show 0 + (0 : ℝ) / _ = 0
    rw [zero_div, add_zero]

lemma gW_not_captured_m12 : ¬ capturedBySink gW ((-12 : ℝ), 0) := by
  rintro ⟨c, hc, hneg, hdist⟩
  have hc2 : c = ((0 : ℝ), (0 : ℝ), CHARGE_STEP) ∨ c = ((23 : ℝ), (0 : ℝ), -CHARGE_STEP) := by
    rcases List.mem_cons.mp hc with h | h
    · exact Or.inl h
    · exact Or.inr (List.mem_singleton.mp h)
  rcases hc2 with rfl | rfl
  · exact absurd hneg (by show ¬ CHARGE_STEP < 0 ; linarith [CHARGE_STEP_pos])
  · rw [show ((-12 : ℝ), (0 : ℝ)).1 - ((23 : ℝ), (0 : ℝ), -CHARGE_STEP).1 = -35 by norm_num,
      show ((-12 : ℝ), (0 : ℝ)).2 - ((23 : ℝ), (0 : ℝ), -CHARGE_STEP).2.1 = 0 by norm_num,
      hypot_eval (show (0 : ℝ) ≤ 35 by norm_num) (by norm_num)] at hdist
    unfold PARTICLE_RADIUS at hdist
    norm_num at hdist

lemma gW_line8_tail_mem : ((-12 : ℝ), (0 : ℝ)) ∈ (gW.traceLine 0 0 8).tail := by
  rw [traceLine_eq, List.tail_cons, seed8]
  rw [show (4096 : ℕ) = 4095 + 1 by norm_num, traceLoop_succ, gW_step_m11,
    if_neg gW_not_captured_m12]
  exact List.mem_cons_self _ _

/-- Witness for C10 at `gW`: the first point after the seed of line 8,
`(-12, 0)`, lies at distance 35 — strictly more than `1.1 * PARTICLE_RADIUS`
— from the negative charge at `(23, 0)`. -/
theorem C10_tail_points_outside_sinks_holds :
    (gW.traceLine 0 0 8 ∈ gW.fieldLines ∧
      ((-12 : ℝ), (0 : ℝ)) ∈ (gW.traceLine 0 0 8).tail ∧
      ((23 : ℝ), (0 : ℝ), -CHARGE_STEP) ∈ gW.particles ∧
      ((23 : ℝ), (0 : ℝ), -CHARGE_STEP).2.2 < 0) ∧
    PARTICLE_RADIUS * 1.1 <
      hypot (((-12 : ℝ), (0 : ℝ)).1 - ((23 : ℝ), (0 : ℝ), -CHARGE_STEP).1)
        (((-12 : ℝ), (0 : ℝ)).2 - ((23 : ℝ), (0 : ℝ), -CHARGE_STEP).2.1) := by
  have hmem : ((23 : ℝ), (0 : ℝ), -CHARGE_STEP) ∈ gW.particles := by
    rw [show gW.particles = [(0, 0, CHARGE_STEP), (23, 0, -CHARGE_STEP)] from rfl]
    exact List.mem_cons_of_mem _ (List.mem_singleton.mpr rfl)
  have hneg : ((23 : ℝ), (0 : ℝ), -CHARGE_STEP).2.2 < 0 := by
    show -CHARGE_STEP < 0
    linarith [CHARGE_STEP_pos]
  exact ⟨⟨gW_line_mem 8 (by norm_num), gW_line8_tail_mem, hmem, hneg⟩,
    C10_tail_points_outside_sinks gW _ (gW_line_mem 8 (by norm_num)) _
      gW_line8_tail_mem _ hmem hneg⟩

lemma g1_field_34 : g1.get_field_strength 3 4 =
    (COULUMBS_CONST * CHARGE_STEP / 25 * (3 / 5),
     COULUMBS_CONST * CHARGE_STEP / 25 * (4 / 5)) := by
  have ha : hypot ((3 : ℝ) - 0) ((4 : ℝ) - 0) = 5 := hypot_eval (by norm_num) (by norm_num)
  rw [get_field_strength_eq_sum]
  show (List.map (specContribution 3 4) [(0, 0, CHARGE_STEP)]).sum = _
  rw [List.map_cons, List.map_nil, List.sum_cons, List.sum_nil, add_zero]
  simp only [specContribution]
  rw [ha, Prod.ext_iff]
  constructor <;> · show _ = _ ; norm_num

/-- Witness for the amended C8: at `(3, 4)` near the single charge of `g1`
the field is nonzero and the tracer's step has length exactly 1. -/
theorem C8_unit_step_holds :
    g1.get_field_strength 3 4 ≠ ((0 : ℝ), (0 : ℝ)) ∧
    hypot ((g1.traceStep (3, 4)).1 - 3) ((g1.traceStep (3, 4)).2 - 4) = 1 := by
  have hne : g1.get_field_strength 3 4 ≠ ((0 : ℝ), (0 : ℝ)) := by
    rw [g1_field_34]
    intro heq
    have h1 := congrArg Prod.fst heq
    simp only at h1
    have hpos : 0 < COULUMBS_CONST * CHARGE_STEP / 25 * (3 / 5) := by
      have h := div_pos (mul_pos COULUMBS_CONST_pos CHARGE_STEP_pos)
        (show (0 : ℝ) < 25 by norm_num)
      exact mul_pos h (by norm_num)
    linarith
  exact ⟨hne, C8_unit_step g1 (3, 4) hne⟩

/-- Superposition over the exact real-number embedding: the field of a charge
list split as `A ++ B` equals the componentwise sum of the fields computed
against `A` alone and against `B` alone.  (Whether this identity holds
bit-exactly under the program's `f64` rounding is a floating-point question
outside this embedding.) -/
theorem superposition_exact (A B : List (ℝ × ℝ × ℝ)) (cc x y : ℝ) :
    (Game.mk (A ++ B) cc).get_field_strength x y =
      (Game.mk A cc).get_field_strength x y +
        (Game.mk B cc).get_field_strength x y := by
  rw [get_field_strength_eq_sum, get_field_strength_eq_sum, get_field_strength_eq_sum]
  show (List.map (specContribution x y) (A ++ B)).sum = _
  rw [List.map_append, List.sum_append]

end

end EFV
